import Mathlib

/-!
# Verification of `scripts/check-docs-links.py`

A shallow embedding of the markdown link checker. The script:

1. enumerates `root.rglob('*.md')` (no sorting) — modelled by `FTree`/`rglob`,
   where each directory's entry list is kept in the order the operating
   system's directory iteration yields it;
2. reads each file (`md.read_text(encoding='utf-8')`, no exception handling) —
   modelled by `Doc.content : Except ReadError (List Char)`;
3. extracts targets with `re.findall(r'\[[^\]]*\]\(([^)]+)\)', text)` —
   modelled by `findLinks` (the pattern is deterministic: the label runs to
   the first `]`, the target to the first `)` and must be non-empty; on a
   failed match the scanner restarts one character later, exactly as
   `re.findall` does; each step consumes at least one character, so
   `s.length` steps of fuel never truncate — see `findLinksAux_fuel`);
4. classifies each target (`startswith` on the raw target for the schemes and
   `#`, then `link.split('#', 1)[0].strip()`, emptiness, `data:`) — modelled
   by `classify`, which returns `some path` exactly when the script goes on
   to the existence check;
5. checks `(md.parent / link_path).resolve().exists()` — modelled by an
   oracle `ex : List Char → List Char → Bool` taking the document's parent
   directory and the path portion;
6. prints the report and exits 1 when `missing` is non-empty, else prints the
   success line and exits 0 — modelled by `report` and `run`.

Strings are `List Char`. `pySpace` models the whitespace `str.strip()`
removes (the ASCII/latin-1 whitespace; further Unicode space characters
behave the same way and never occur in the claims' inputs).
-/

namespace CheckDocsLinks

/-- The characters `str.strip()` (no arguments) removes. -/
def pySpace (c : Char) : Bool :=
  c == ' ' || c == '\t' || c == '\n' || c == '\x0b' || c == '\x0c' || c == '\r' ||
  c == '\x1c' || c == '\x1d' || c == '\x1e' || c == '\x1f' || c == '\x85' || c == '\xa0'

/-- Leading whitespace removal, the first half of `str.strip()`. -/
def lstrip (l : List Char) : List Char := l.dropWhile pySpace

/-- Trailing whitespace removal, the second half of `str.strip()`. -/
def rstrip : List Char → List Char
  | [] => []
  | c :: l =>
    let r := rstrip l
    if r.isEmpty then (if pySpace c then [] else [c]) else c :: r

/-- `str.strip()`. -/
def strip (l : List Char) : List Char := rstrip (lstrip l)

def notHash (c : Char) : Bool := c != '#'

/-- `link.split('#', 1)[0]`: everything before the first `#`. -/
def beforeHash (l : List Char) : List Char := l.takeWhile notHash

/-- The tuple of `link.startswith(('http://', 'https://', 'mailto:'))`. -/
def schemes : List (List Char) :=
  [String.toList "http://", String.toList "https://", String.toList "mailto:"]

/-- Lines 13–21 of the script: the classification of one raw target.
`none` = the loop `continue`s (the target is skipped); `some lp` = the script
goes on to check the existence of path portion `lp`. -/
def classify (link : List Char) : Option (List Char) :=
  if schemes.any fun s => s.isPrefixOf link then none
  else if (String.toList "#").isPrefixOf link then none
  else
    let lp := strip (beforeHash link)
    if lp.isEmpty then none
    else if (String.toList "data:").isPrefixOf lp then none
    else some lp

/-- Modelled from the spec: the classification of section 4.1 step 3 read
word for word — "trim whitespace; split off anything after the first `#` to
get the path portion. If the pre-split target starts with an external scheme
or `#`, or the path portion is empty, or the path portion starts with
`data:`, skip". Unlike the script, the trimming happens before every test.
`true` = the target is skipped. -/
def specSkip (link : List Char) : Bool :=
  let t := strip link
  let lp := beforeHash t
  (schemes.any fun s => s.isPrefixOf t) || (String.toList "#").isPrefixOf t ||
    lp.isEmpty || (String.toList "data:").isPrefixOf lp

/-- The amended description of the classification: the scheme and `#` tests
run on the raw (untrimmed) target; the path portion is everything before the
first `#` with surrounding whitespace then stripped. `true` = skipped. -/
def amendedSkip (link : List Char) : Bool :=
  (schemes.any fun s => s.isPrefixOf link) || (String.toList "#").isPrefixOf link ||
    (strip (beforeHash link)).isEmpty ||
    (String.toList "data:").isPrefixOf (strip (beforeHash link))

/-- One attempted match of `\[[^\]]*\]\(([^)]+)\)` just after an opening `[`:
the label runs to the first `]`, which must be followed by `(`; the target
runs to the first `)` and must be non-empty. Returns the captured target and
the text after the closing `)`. -/
def tryMatch (s : List Char) : Option (List Char × List Char) :=
  match s.dropWhile fun c => c != ']' with
  | ']' :: '(' :: r2 =>
    match r2.dropWhile fun c => c != ')' with
    | ')' :: r4 =>
      if (r2.takeWhile fun c => c != ')').isEmpty then none
      else some (r2.takeWhile fun c => c != ')', r4)
    | _ => none
  | _ => none

/-- `re.findall` of the link pattern, fuelled: scanning restarts one
character later on a failed match and after the closing `)` on a successful
one, exactly as the regex engine does. Each step consumes at least one
character, so fuel `s.length` never truncates (`findLinksAux_fuel`). -/
def findLinksAux : Nat → List Char → List (List Char)
  | 0, _ => []
  | _ + 1, [] => []
  | fuel + 1, c :: rest =>
    if c = '[' then
      match tryMatch rest with
      | some (tgt, r') => tgt :: findLinksAux fuel r'
      | none => findLinksAux fuel rest
    else findLinksAux fuel rest

/-- `link_re.findall(text)`: every captured target, left to right. -/
def findLinks (s : List Char) : List (List Char) := findLinksAux s.length s

/-- Why `md.read_text` can raise: the script reads with `encoding='utf-8'`
and no exception handling, so a decode error, a permission error, or a
matched directory surfaces. -/
inductive ReadError where
  | unicode
  | permission
  | isADirectory
deriving DecidableEq

instance {α : Type} [DecidableEq α] : DecidableEq (Except ReadError α) := fun a b =>
  match a, b with
  | .error e1, .error e2 => decidable_of_iff (e1 = e2) (by simp)
  | .ok v1, .ok v2 => decidable_of_iff (v1 = v2) (by simp)
  | .error _, .ok _ => .isFalse (by simp)
  | .ok _, .error _ => .isFalse (by simp)

/-- One discovered markdown path: its printable path (`str(md)`), its parent
directory (`md.parent`) and what reading it yields. -/
structure Doc where
  path : List Char
  parent : List Char
  content : Except ReadError (List Char)
deriving DecidableEq

/-- The body of the `for link … :` loop for one raw target: `none` when the
target is skipped or its resolved path exists, `some (md, link)` when the
pair is appended to `missing`. `ex par lp` is the existence oracle for
`(md.parent / link_path).resolve().exists()`. -/
def checkLink (ex : List Char → List Char → Bool) (parent path link : List Char) :
    Option (List Char × List Char) :=
  match classify link with
  | none => none
  | some lp => if ex parent lp then none else some (path, link)

/-- The `for link in link_re.findall(text)` loop for one document: the
`(md, link)` pairs appended to `missing`, in order. -/
def checkDoc (ex : List Char → List Char → Bool) (path parent text : List Char) :
    List (List Char × List Char) :=
  (findLinks text).filterMap (checkLink ex parent path)

/-- The `for md in md_files` loop: the accumulated `missing` list, or the
first read error, which propagates and aborts the run. -/
def scan (ex : List Char → List Char → Bool) :
    List Doc → Except ReadError (List (List Char × List Char))
  | [] => .ok []
  | d :: ds =>
    match d.content with
    | .error e => .error e
    | .ok text =>
      match scan ex ds with
      | .error e => .error e
      | .ok rest => .ok (checkDoc ex d.path d.parent text ++ rest)

/-- Modelled from the spec's error-handling words: the first unreadable
document's error, if any. -/
def firstReadError : List Doc → Option ReadError
  | [] => none
  | d :: ds =>
    match d.content with
    | .error e => some e
    | .ok _ => firstReadError ds

/-- Modelled from the spec's error-handling words ("a Document unreadable …
is a fatal condition for the run (propagate)"; "per-link failures never abort
the scan"; missing targets "collected, not raised immediately, so the full
report is produced in one pass"): propagate the first read error if any
document is unreadable, otherwise accumulate every document's missing links
in order. -/
def scanModel (ex : List Char → List Char → Bool) (docs : List Doc) :
    Except ReadError (List (List Char × List Char)) :=
  match firstReadError docs with
  | some e => .error e
  | none =>
    .ok (docs.flatMap fun d =>
      match d.content with
      | .ok text => checkDoc ex d.path d.parent text
      | .error _ => [])

def okLine : List Char := String.toList "All local markdown links resolve."

def headerLine : List Char := String.toList "Missing links:"

/-- `f'- {md}: {link}'`. -/
def fmtLine (pr : List Char × List Char) : List Char :=
  String.toList "- " ++ pr.1 ++ String.toList ": " ++ pr.2

/-- Lines 26–32 of the script: the printed lines and the exit status. When
`missing` is non-empty the script prints the header and one line per pair and
exits 1; otherwise it prints the confirmation line and finishes (status 0). -/
def report (m : List (List Char × List Char)) : List (List Char) × Nat :=
  match m with
  | [] => ([okLine], 0)
  | _ => (headerLine :: m.map fmtLine, 1)

/-- The whole run after discovery: scan the documents, then report. An
unreadable document propagates its error before anything is printed. -/
def run (ex : List Char → List Char → Bool) (docs : List Doc) :
    Except ReadError (List (List Char) × Nat) :=
  (scan ex docs).map report

/-- A directory tree as the operating system presents it: each directory's
entries in directory-iteration order. Files carry what reading them yields. -/
inductive FTree where
  | file (name : List Char) (content : Except ReadError (List Char))
  | dir (name : List Char) (entries : List FTree)

def FTree.nm : FTree → List Char
  | .file n _ => n
  | .dir n _ => n

/-- `Path('.') / name` printing: the leading `.` is not rendered. -/
def joinPath (p n : List Char) : List Char :=
  if p = String.toList "." then n else p ++ '/' :: n

/-- Whether `*.md` matches an entry name (pathlib's glob does not exempt
hidden files, so this is exactly a `.md` suffix). -/
def matchesMd (n : List Char) : Bool := (String.toList ".md").isSuffixOf n

/-- The matches `*.md` selects inside one directory, in entry order. -/
def dirMatches (p : List Char) (entries : List FTree) : List (List Char) :=
  (entries.filter fun e => matchesMd e.nm).map fun e => joinPath p e.nm

/-- The recursive part of `rglob('*.md')`: for each directory entry that is a
directory, in entry order, its own matches followed by its subdirectories',
depth first — the order `pathlib`'s recursive wildcard yields. -/
def rglobSubdirs (p : List Char) : List FTree → List (List Char)
  | [] => []
  | .file _ _ :: es => rglobSubdirs p es
  | .dir n sub :: es =>
    (dirMatches (joinPath p n) sub ++ rglobSubdirs (joinPath p n) sub) ++ rglobSubdirs p es

/-- `list(Path('.').rglob('*.md'))`: the root's matches, then each
subdirectory's, depth first, everywhere in directory-iteration order. -/
def rglob (entries : List FTree) : List (List Char) :=
  dirMatches (String.toList ".") entries ++ rglobSubdirs (String.toList ".") entries

/-- Every entry of one directory as a `(path, name)` pair, in entry order. -/
def dirEntriesNamed (p : List Char) (entries : List FTree) : List (List Char × List Char) :=
  entries.map fun e => (joinPath p e.nm, e.nm)

/-- Every entry below the subdirectories of a directory, `(path, name)`, in
the same traversal order as `rglobSubdirs`. -/
def allEntriesSub (p : List Char) : List FTree → List (List Char × List Char)
  | [] => []
  | .file _ _ :: es => allEntriesSub p es
  | .dir n sub :: es =>
    (dirEntriesNamed (joinPath p n) sub ++ allEntriesSub (joinPath p n) sub) ++ allEntriesSub p es

/-- Every entry of the tree, `(path, name)`, in traversal order. -/
def allEntries (entries : List FTree) : List (List Char × List Char) :=
  dirEntriesNamed (String.toList ".") entries ++ allEntriesSub (String.toList ".") entries

/-- Lexicographic comparison of paths, character by character. -/
def lexLe : List Char → List Char → Bool
  | [], _ => true
  | _ :: _, [] => false
  | a :: as, b :: bs => if a < b then true else if a = b then lexLe as bs else false

/-- Whether a list of paths is in lexicographic order. -/
def lexSortedB : List (List Char) → Bool
  | [] => true
  | [_] => true
  | a :: b :: t => lexLe a b && lexSortedB (b :: t)

/-- Both cases of one character, for enumerating case variants of a prefix. -/
def charVars (c : Char) : List Char :=
  if c.isAlpha then [c.toLower, c.toUpper] else [c]

/-- Every string obtained by flipping the case of any letters of `p`. -/
def caseFlips : List Char → List (List Char)
  | [] => [[]]
  | c :: cs => (charVars c).flatMap fun v => (caseFlips cs).map fun t => v :: t

/-- The case variants of `p` other than `p` itself. -/
def caseVariantsOf (p : List Char) : List (List Char) :=
  (caseFlips p).filter fun v => v ≠ p

/-- The prefixes whose classification the script tests, for the
case-sensitivity claim. -/
def c10Prefixes : List (List Char) :=
  [String.toList "http://", String.toList "https://", String.toList "mailto:",
    String.toList "data:"]

def c10Variants : List (List Char) := c10Prefixes.flatMap caseVariantsOf

/-- `q` is a prefix of `v ++ rest` for no `rest` at all (`noPrefixAll_spec`). -/
def noPrefixAll (q v : List Char) : Bool :=
  if q.length ≤ v.length then !(q.isPrefixOf v) else !(v.isPrefixOf q)

/-- The facts about a target prefix `v` that force the script to run the
existence check on `v ++ rest` for every `rest`: non-empty, not opening with
whitespace, no `#` inside, and incompatible with each skipped prefix. -/
def c10Good (v : List Char) : Bool :=
  match v with
  | [] => false
  | c :: _ =>
    !pySpace c && !v.contains '#' &&
      noPrefixAll (String.toList "http://") v && noPrefixAll (String.toList "https://") v &&
      noPrefixAll (String.toList "mailto:") v && noPrefixAll (String.toList "#") v &&
      noPrefixAll (String.toList "data:") v

/-- The five prefixes the spec says are never checked. -/
def c3Prefixes : List (List Char) :=
  [String.toList "http://", String.toList "https://", String.toList "mailto:",
    String.toList "#", String.toList "data:"]

/-- An existence oracle under which nothing exists, for concrete runs. -/
def exFalse : List Char → List Char → Bool := fun _ _ => false

/-- A concrete document whose text repeats the same missing link twice. -/
def docTwice : Doc :=
  ⟨String.toList "a.md", String.toList ".",
    .ok (String.toList "[x](./m.md) and [y](./m.md)")⟩

/-- A concrete root listing whose directory-iteration order is not
lexicographic. -/
def esUnsorted : List FTree :=
  [FTree.file (String.toList "b.md") (.ok []), FTree.file (String.toList "a.md") (.ok [])]

/-! ## Helper lemmas -/

theorem dropWhile_length_le (p : Char → Bool) (l : List Char) :
    (l.dropWhile p).length ≤ l.length := by
  induction l with
  | nil => simp
  | cons c t ih =>
    by_cases h : p c
    · simp [List.dropWhile_cons, h]; omega
    · simp [List.dropWhile_cons, h]

theorem tryMatch_length {s tgt r : List Char} (h : tryMatch s = some (tgt, r)) :
    r.length ≤ s.length := by
  unfold tryMatch at h
  split at h
  next r2 heq =>
    have h1 : (']' :: '(' :: r2).length ≤ s.length := by
      rw [← heq]; exact dropWhile_length_le _ s
    split at h
    next r4 heq2 =>
      have h2 : (')' :: r4).length ≤ r2.length := by
        rw [← heq2]; exact dropWhile_length_le _ r2
      split at h
      · exact absurd h (by simp)
      · have hr : r4 = r := by
          have h3 := h
          injection h3 with h4
          exact congrArg Prod.snd h4
        subst hr
        simp only [List.length_cons] at h1 h2
        omega
    next => exact absurd h (by simp)
  next => exact absurd h (by simp)

theorem findLinksAux_fuel :
    ∀ f1 f2 s, s.length ≤ f1 → s.length ≤ f2 →
      findLinksAux f1 s = findLinksAux f2 s := by
  intro f1
  induction f1 with
  | zero =>
    intro f2 s h1 _
    have : s = [] := by
      cases s with
      | nil => rfl
      | cons c t => simp at h1
    subst this
    cases f2 <;> simp [findLinksAux]
  | succ f ih =>
    intro f2 s h1 h2
    cases s with
    | nil => cases f2 <;> simp [findLinksAux]
    | cons c rest =>
      cases f2 with
      | zero => simp at h2
      | succ f2' =>
        have hrest : rest.length ≤ f := by simpa using h1
        have hrest2 : rest.length ≤ f2' := by simpa using h2
        by_cases hc : c = '['
        · rcases htm : tryMatch rest with _ | ⟨tgt, r'⟩
          · simp only [findLinksAux, if_pos hc, htm]
            exact ih f2' rest hrest hrest2
          · have hr := tryMatch_length htm
            simp only [findLinksAux, if_pos hc, htm]
            rw [ih f2' r' (le_trans hr hrest) (le_trans hr hrest2)]
        · simp only [findLinksAux, if_neg hc]
          exact ih f2' rest hrest hrest2

theorem rstrip_isEmpty_false_of_nonspace {c : Char} (l : List Char)
    (h : pySpace c = false) : (rstrip (c :: l)).isEmpty = false := by
  by_cases he : (rstrip l).isEmpty
  · simp [rstrip, he, h]
  · simp [rstrip, he]

theorem rstrip_cons_of_nonempty {c : Char} {l : List Char}
    (h : (rstrip l).isEmpty = false) : rstrip (c :: l) = c :: rstrip l := by
  simp [rstrip, h]

theorem rstrip_cons_head {c : Char} (l : List Char) (h : pySpace c = false) :
    ∃ w, rstrip (c :: l) = c :: w := by
  by_cases he : (rstrip l).isEmpty
  · exact ⟨[], by simp [rstrip, he, h]⟩
  · exact ⟨rstrip l, by simp [rstrip, he]⟩

theorem rstrip_append_of_nonempty :
    ∀ (x y : List Char), (rstrip y).isEmpty = false →
      rstrip (x ++ y) = x ++ rstrip y := by
  intro x
  induction x with
  | nil => intro y _; rfl
  | cons c t ih =>
    intro y hy
    have htail : rstrip (t ++ y) = t ++ rstrip y := ih y hy
    have hne : (rstrip (t ++ y)).isEmpty = false := by
      rw [htail]
      rcases hr : rstrip y with _ | _
      · rw [hr] at hy; simp at hy
      · simp [hr]
    rw [List.cons_append, rstrip_cons_of_nonempty hne, htail, List.cons_append]

theorem rstrip_isPre : ∀ l : List Char, rstrip l <+: l := by
  intro l
  induction l with
  | nil => simp [rstrip]
  | cons c t ih =>
    by_cases he : (rstrip t).isEmpty
    · by_cases hc : pySpace c
      · simp [rstrip, he, hc]
      · simp only [rstrip, he, if_true, hc, if_false, Bool.false_eq_true]
        exact ⟨t, rfl⟩
    · rw [rstrip_cons_of_nonempty (by simpa using he)]
      exact (List.prefix_cons_inj c).mpr ih

theorem takeWhile_append_of_all {v : List Char} (p : Char → Bool)
    (hv : ∀ c ∈ v, p c = true) (y : List Char) :
    (v ++ y).takeWhile p = v ++ y.takeWhile p := by
  induction v with
  | nil => rfl
  | cons c t ih =>
    have hc : p c = true := hv c (by simp)
    have ht : ∀ c ∈ t, p c = true := fun a ha => hv a (by simp [ha])
    simp [List.takeWhile_cons, hc, ih ht]

theorem noPrefixAll_spec {q v : List Char} (h : noPrefixAll q v = true) :
    ∀ rest, ¬ q <+: v ++ rest := by
  intro rest hpre
  unfold noPrefixAll at h
  by_cases hl : q.length ≤ v.length
  · rw [if_pos hl] at h
    have : q <+: v := by
      rw [List.prefix_iff_eq_take] at hpre ⊢
      rw [List.take_append_eq_append_take, Nat.sub_eq_zero_of_le hl] at hpre
      simpa using hpre
    rw [Bool.not_eq_eq_eq_not, Bool.not_true] at h
    exact absurd (( List.isPrefixOf_iff_prefix).mpr this) (by simp [h])
  · rw [if_neg hl] at h
    have hv : v <+: v ++ rest := ⟨rest, rfl⟩
    rcases List.prefix_or_prefix_of_prefix hpre hv with hqv | hvq
    · exact hl (hqv.length_le)
    · rw [Bool.not_eq_eq_eq_not, Bool.not_true] at h
      exact absurd (( List.isPrefixOf_iff_prefix).mpr hvq) (by simp [h])

theorem contains_false_forall {v : List Char} (h : v.contains '#' = false) :
    ∀ c ∈ v, notHash c = true := by
  intro c hc
  rcases eq_or_ne c '#' with rfl | hne
  · exfalso
    have : v.contains '#' = true := List.elem_eq_true_of_mem hc
    rw [h] at this; exact Bool.false_ne_true this
  · simp [notHash, hne]

/-- Evaluating `classify` on `l` once every branch condition is known. -/
theorem classify_eval {l lp : List Char}
    (hsch : (schemes.any fun s => s.isPrefixOf l) = false)
    (hhash : ((String.toList "#").isPrefixOf l) = false)
    (hlp : strip (beforeHash l) = lp)
    (hne : lp.isEmpty = false)
    (hdata : ((String.toList "data:").isPrefixOf lp) = false) :
    classify l = some lp := by
  unfold classify
  rw [hsch, hhash, hlp]
  have hd' : ¬ (String.toList "data:") <+: lp := by
    intro hpre
    have h2 := ( List.isPrefixOf_iff_prefix).mpr hpre
    rw [hdata] at h2
    exact Bool.false_ne_true h2
  simp [hne]
  simpa using hd'

/-- The core of the case-sensitivity and `data:` arguments: a prefix `v`
satisfying `c10Good` forces the script to reach the existence check on
`v ++ rest`, whatever `rest` is. -/
theorem classify_isSome_of_good {v : List Char} (hg : c10Good v = true) :
    ∀ rest, (classify (v ++ rest)).isSome = true := by
  intro rest
  rcases v with _ | ⟨c, t⟩
  · exact absurd hg (by simp [c10Good])
  simp only [c10Good, Bool.and_eq_true] at hg
  obtain ⟨⟨⟨⟨⟨⟨hc, hnh⟩, hp1⟩, hp2⟩, hp3⟩, hp4⟩, hp5⟩ := hg
  have hc' : pySpace c = false := by simpa using hc
  have hsch : (schemes.any fun s => s.isPrefixOf (c :: t ++ rest)) = false := by
    rw [Bool.eq_false_iff]
    intro hany
    rw [List.any_eq_true] at hany
    obtain ⟨s, hs, hpre⟩ := hany
    rw [ List.isPrefixOf_iff_prefix] at hpre
    simp only [schemes, List.mem_cons, List.not_mem_nil, or_false] at hs
    rcases hs with rfl | rfl | rfl
    · exact noPrefixAll_spec hp1 rest hpre
    · exact noPrefixAll_spec hp2 rest hpre
    · exact noPrefixAll_spec hp3 rest hpre
  have hhash : ((String.toList "#").isPrefixOf (c :: t ++ rest)) = false := by
    rw [Bool.eq_false_iff]
    intro hpre
    rw [ List.isPrefixOf_iff_prefix] at hpre
    exact noPrefixAll_spec hp4 rest hpre
  have hbh : beforeHash (c :: t ++ rest) = (c :: t) ++ beforeHash rest := by
    unfold beforeHash
    exact takeWhile_append_of_all notHash (contains_false_forall (by simpa using hnh)) rest
  have hls : lstrip ((c :: t) ++ beforeHash rest) = (c :: t) ++ beforeHash rest := by
    simp [lstrip, List.dropWhile_cons, hc']
  have hlp : strip (beforeHash (c :: t ++ rest)) = rstrip ((c :: t) ++ beforeHash rest) := by
    rw [hbh]; unfold strip; rw [hls]
  have hne : (rstrip ((c :: t) ++ beforeHash rest)).isEmpty = false := by
    rw [List.cons_append]
    exact rstrip_isEmpty_false_of_nonspace _ hc'
  have hdata :
      ((String.toList "data:").isPrefixOf (rstrip ((c :: t) ++ beforeHash rest))) = false := by
    rw [Bool.eq_false_iff]
    intro hpre
    rw [ List.isPrefixOf_iff_prefix] at hpre
    have h2 : rstrip ((c :: t) ++ beforeHash rest) <+: (c :: t) ++ beforeHash rest :=
      rstrip_isPre _
    exact noPrefixAll_spec hp5 (beforeHash rest) (hpre.trans h2)
  rw [classify_eval hsch hhash hlp hne hdata]
  rfl

theorem isPre_of_eq_true {p l : List Char} (h : p.isPrefixOf l = true) : p <+: l :=
  ( List.isPrefixOf_iff_prefix).mp h

theorem not_isPre_of_eq_false {p l : List Char} (h : p.isPrefixOf l = false) : ¬ p <+: l := by
  intro hp
  have h2 := ( List.isPrefixOf_iff_prefix).mpr hp
  rw [h] at h2
  exact Bool.false_ne_true h2

/-- When the path portion starts with `data:` the target is skipped, whatever
the earlier branches did. -/
theorem classify_none_of_data {l lp : List Char}
    (hlp : strip (beforeHash l) = lp)
    (hdata : (['d', 'a', 't', 'a', ':'] : List Char).isPrefixOf lp = true) :
    classify l = none := by
  unfold classify
  by_cases hA : (schemes.any fun s => s.isPrefixOf l) = true
  · simp [hA]
  · rw [Bool.not_eq_true] at hA
    by_cases hB : ((['#'] : List Char).isPrefixOf l) = true
    · simp [hA, hB, isPre_of_eq_true hB]
    · rw [Bool.not_eq_true] at hB
      simp [hA, hB, not_isPre_of_eq_false hB, hlp, isPre_of_eq_true hdata]

theorem tryMatch_tgt {s tgt r : List Char} (h : tryMatch s = some (tgt, r)) :
    tgt.isEmpty = false := by
  unfold tryMatch at h
  split at h
  next r2 heq =>
    split at h
    next r4 heq2 =>
      split at h
      next => exact absurd h (by simp)
      next hcond =>
        have h2 : r2.takeWhile (fun c => c != ')') = tgt := by
          injection h with h3
          exact congrArg Prod.fst h3
        rw [← h2]
        simpa using hcond
    next => exact absurd h (by simp)
  next => exact absurd h (by simp)

/-- What `checkLink` reports when it reports: the pair is the document's
path with the raw target, which was classified local with a non-existing
path portion. -/
theorem checkLink_some {ex : List Char → List Char → Bool} {parent path x : List Char}
    {z : List Char × List Char} (h : checkLink ex parent path x = some z) :
    ∃ lp, z = (path, x) ∧ classify x = some lp ∧ ex parent lp = false := by
  unfold checkLink at h
  cases hcx : classify x with
  | none => rw [hcx] at h; exact absurd h (by simp)
  | some lp =>
    rw [hcx] at h
    have h2 : (if ex parent lp = true then none else some (path, x)) = some z := h
    by_cases hex : ex parent lp = true
    · rw [if_pos hex] at h2; exact absurd h2 (by simp)
    · rw [if_neg hex] at h2
      have h3 : (path, x) = z := by injection h2
      exact ⟨lp, h3.symm, rfl, by simpa using hex⟩

/-- What membership in one document's contribution to `missing` means: the
pair is the document's path with a raw extracted target that was classified
local and whose path portion does not exist. -/
theorem mem_checkDoc {ex : List Char → List Char → Bool} {path parent text : List Char}
    {pr : List Char × List Char} (h : pr ∈ checkDoc ex path parent text) :
    ∃ lnk lp, pr = (path, lnk) ∧ lnk ∈ findLinks text ∧
      classify lnk = some lp ∧ ex parent lp = false := by
  unfold checkDoc at h
  rw [List.mem_filterMap] at h
  obtain ⟨lnk, hmem, hmap⟩ := h
  obtain ⟨lp, hz, hcl, hex⟩ := checkLink_some hmap
  exact ⟨lnk, lp, hz, hmem, hcl, hex⟩

/-- Counting one raw target's contribution to `missing` for one document:
when the target is classified local and its path portion does not exist, one
entry per occurrence. -/
theorem checkDoc_count {ex : List Char → List Char → Bool} {path parent link lp : List Char}
    (text : List Char) (hc : classify link = some lp) (hex : ex parent lp = false) :
    (checkDoc ex path parent text).count (path, link) = (findLinks text).count link := by
  unfold checkDoc
  generalize findLinks text = L
  induction L with
  | nil => rfl
  | cons x xs ih =>
    by_cases hx : x = link
    · subst hx
      rw [List.filterMap_cons_some
        (show checkLink ex parent path x = some (path, x) by simp [checkLink, hc, hex])]
      rw [List.count_cons, List.count_cons, ih]
      simp
    · cases hfx : checkLink ex parent path x with
      | none =>
        rw [List.filterMap_cons_none hfx, List.count_cons, ih,
          beq_eq_false_iff_ne.mpr hx]
        simp
      | some z =>
        obtain ⟨lpx, hz, _, _⟩ := checkLink_some hfx
        rw [List.filterMap_cons_some hfx, List.count_cons, List.count_cons, ih]
        have hzz : (z == (path, link)) = false := by
          rw [beq_eq_false_iff_ne, hz]
          intro hp
          exact hx (congrArg Prod.snd hp)
        rw [hzz, beq_eq_false_iff_ne.mpr hx]

/-- Every entry `scan` accumulates carries the path of one scanned document. -/
theorem scan_fst_mem {ex : List Char → List Char → Bool} :
    ∀ {ds : List Doc} {rest : List (List Char × List Char)},
      scan ex ds = .ok rest → ∀ {pr : List Char × List Char}, pr ∈ rest →
        pr.1 ∈ ds.map Doc.path := by
  intro ds
  induction ds with
  | nil =>
    intro rest h pr hpr
    unfold scan at h
    injection h with h2
    rw [← h2] at hpr
    exact absurd hpr (by simp)
  | cons d0 ds ih =>
    intro rest h pr hpr
    unfold scan at h
    cases hc0 : d0.content with
    | error e => rw [hc0] at h; exact absurd h (by simp)
    | ok t0 =>
      rw [hc0] at h
      cases hs : scan ex ds with
      | error e => rw [hs] at h; exact absurd h (by simp)
      | ok rest' =>
        rw [hs] at h
        have h2 : checkDoc ex d0.path d0.parent t0 ++ rest' = rest := by
          injection h
        rw [← h2] at hpr
        rcases List.mem_append.mp hpr with hl | hr
        · obtain ⟨lnk, lp, hpr2, _, _, _⟩ := mem_checkDoc hl
          rw [List.map_cons]
          exact List.mem_cons.mpr (Or.inl (by rw [hpr2]))
        · rw [List.map_cons]
          exact List.mem_cons.mpr (Or.inr (ih hs hr))

/-! ## The claims -/

/-- C1. The exit status is 0 exactly when the accumulated Validation Result
is empty and 1 when it is non-empty, and no run that reaches the report
produces any other exit code. -/
theorem exit_status_zero_iff_empty (ex : List Char → List Char → Bool) (docs : List Doc) :
    ((run ex docs).toOption.map fun pr => pr.2) =
      ((scan ex docs).toOption.map fun m => if m.isEmpty then 0 else 1) ∧
    (((run ex docs).toOption.map fun pr => pr.2).all fun c => c == 0 || c == 1) = true := by
  cases hs : scan ex docs with
  | error e => simp [run, hs, Except.toOption, Except.map]
  | ok m =>
    cases m with
    | nil => simp [run, hs, Except.toOption, Except.map, report]
    | cons a t => simp [run, hs, Except.toOption, Except.map, report]

/-- C6. The scan aborts, propagating the first read error, exactly when some
discovered document is unreadable; otherwise every document's missing links
are accumulated and returned together — a missing link target never aborts
the scan. -/
theorem scan_matches_error_model (ex : List Char → List Char → Bool) (docs : List Doc) :
    scan ex docs = scanModel ex docs := by
  induction docs with
  | nil => rfl
  | cons d ds ih =>
    cases hc : d.content with
    | error e => simp [scan, scanModel, firstReadError, hc]
    | ok text =>
      cases hf : firstReadError ds with
      | some e =>
        have hds : scan ex ds = .error e := by
          rw [ih]; simp [scanModel, hf]
        simp [scan, scanModel, firstReadError, hc, hf, hds]
      | none =>
        have hds : scan ex ds = .ok (ds.flatMap fun d =>
            match d.content with
            | .ok text => checkDoc ex d.path d.parent text
            | .error _ => []) := by
          rw [ih]; simp [scanModel, hf]
        simp [scan, scanModel, firstReadError, hc, hf, hds]

/-- C7. On a non-empty Validation Result standard output is the header line
followed by one `- <document-path>: <raw-target>` line per missing pair in
order; on an empty result it is the single confirmation line. -/
theorem output_format (ex : List Char → List Char → Bool) (docs : List Doc) :
    ((run ex docs).toOption.map fun pr => pr.1) =
      ((scan ex docs).toOption.map fun m =>
        if m.isEmpty then [String.toList "All local markdown links resolve."]
        else String.toList "Missing links:" ::
          m.map fun pr => String.toList "- " ++ pr.1 ++ String.toList ": " ++ pr.2) := by
  have hfmt : fmtLine = fun pr : List Char × List Char =>
      String.toList "- " ++ pr.1 ++ String.toList ": " ++ pr.2 :=
    funext fun pr => rfl
  cases hs : scan ex docs with
  | error e => simp [run, hs, Except.toOption, Except.map]
  | ok m =>
    cases m with
    | nil => simp [run, hs, Except.toOption, Except.map, report, okLine]
    | cons a t =>
      simp [run, hs, Except.toOption, Except.map, report, headerLine, hfmt]

/-- C8. The extraction pattern requires at least one character between the
parentheses, so `[label]()` is never extracted and an empty raw target never
reaches the Validation Result. -/
theorem no_empty_target (text : List Char) :
    ((findLinks text).all fun t => !t.isEmpty) = true ∧
      ∀ ex path parent, ((checkDoc ex path parent text).all fun pr => !pr.2.isEmpty) = true := by
  have haux : ∀ fuel s, ((findLinksAux fuel s).all fun t => !t.isEmpty) = true := by
    intro fuel
    induction fuel with
    | zero => intro s; rfl
    | succ f ih =>
      intro s
      cases s with
      | nil => rfl
      | cons c rest =>
        by_cases hc : c = '['
        · rcases htm : tryMatch rest with _ | ⟨tgt, r'⟩
          · simp only [findLinksAux, if_pos hc, htm]
            exact ih rest
          · have htne := tryMatch_tgt htm
            simp only [findLinksAux, if_pos hc, htm, List.all_cons]
            rw [htne]
            simpa using ih r'
        · simp only [findLinksAux, if_neg hc]
          exact ih rest
  refine ⟨haux text.length text, ?_⟩
  intro ex path parent
  rw [List.all_eq_true]
  intro pr hpr
  obtain ⟨lnk, lp, hpr2, hmem, _, _⟩ := mem_checkDoc hpr
  have hl := (List.all_eq_true.mp (haux text.length text)) lnk hmem
  rw [hpr2]
  exact hl

/-- C9. A preceding `!` plays no part in extraction — `![alt](target)` is
matched exactly like `[alt](target)` — and a local image target that does not
exist is reported in the Validation Result. -/
theorem image_links_checked :
    (∀ s, findLinks ('!' :: s) = findLinks s) ∧
      checkDoc exFalse (String.toList "a.md") (String.toList ".")
          (String.toList "![x](./missing.png)") =
        [(String.toList "a.md", String.toList "./missing.png")] := by
  constructor
  · intro s
    unfold findLinks
    simp only [List.length_cons, findLinksAux]
    rw [if_neg (by decide)]
  · decide

/-- C2 counterexample. For the raw target `" http://example.com"` the spec's
trim-first classification says "skip", but the script — which tests the
schemes on the untrimmed target — classifies it local and checks it. -/
theorem classification_trim_cex :
    (classify (String.toList " http://example.com")).isNone = false ∧
      specSkip (String.toList " http://example.com") = true := by
  decide

/-- C2 as amended. A target is skipped exactly when the raw (untrimmed)
target starts with `http://`, `https://`, `mailto:` or `#`, or the path
portion — everything before the first `#`, whitespace-stripped afterwards —
is empty or starts with `data:`. -/
theorem classification_skip_amended (link : List Char) :
    (classify link).isNone = amendedSkip link := by
  unfold classify amendedSkip
  by_cases hA : (schemes.any fun s => s.isPrefixOf link) = true
  · simp [hA]
  · rw [Bool.not_eq_true] at hA
    by_cases hB : ((['#'] : List Char).isPrefixOf link) = true
    · simp [hA, hB, isPre_of_eq_true hB]
    · rw [Bool.not_eq_true] at hB
      by_cases hE : (strip (beforeHash link)).isEmpty = true
      · simp [hA, hB, not_isPre_of_eq_false hB, List.isEmpty_iff.mp hE]
      · rw [Bool.not_eq_true] at hE
        by_cases hD :
            ((['d', 'a', 't', 'a', ':'] : List Char).isPrefixOf (strip (beforeHash link))) = true
        · simp [hA, hB, not_isPre_of_eq_false hB, hE, List.isEmpty_eq_false.mp hE,
            hD, isPre_of_eq_true hD]
        · rw [Bool.not_eq_true] at hD
          simp [hA, hB, not_isPre_of_eq_false hB, hE, List.isEmpty_eq_false.mp hE,
            hD, not_isPre_of_eq_false hD]

/-- C3. A target beginning with `http://`, `https://`, `mailto:`, `#` or
`data:` is never existence-checked and can never appear in the Validation
Result, whatever the oracle says about the filesystem. -/
theorem external_never_checked (link : List Char)
    (h : (c3Prefixes.any fun p => p.isPrefixOf link) = true) :
    classify link = none ∧
      ∀ ex path parent text,
        ((checkDoc ex path parent text).filter fun pr => pr.2 == link) = [] := by
  have hnone : classify link = none := by
    rw [List.any_eq_true] at h
    obtain ⟨p, hmem, hp⟩ := h
    simp only [c3Prefixes, List.mem_cons, List.not_mem_nil, or_false] at hmem
    rcases hmem with rfl | rfl | rfl | rfl | rfl
    · have hcond : (schemes.any fun s => s.isPrefixOf link) = true := by
        rw [List.any_eq_true]
        exact ⟨String.toList "http://", by simp [schemes], hp⟩
      unfold classify
      simp [hcond]
    · have hcond : (schemes.any fun s => s.isPrefixOf link) = true := by
        rw [List.any_eq_true]
        exact ⟨String.toList "https://", by simp [schemes], hp⟩
      unfold classify
      simp [hcond]
    · have hcond : (schemes.any fun s => s.isPrefixOf link) = true := by
        rw [List.any_eq_true]
        exact ⟨String.toList "mailto:", by simp [schemes], hp⟩
      unfold classify
      simp [hcond]
    · by_cases hA : (schemes.any fun s => s.isPrefixOf link) = true
      · unfold classify
        simp [hA]
      · rw [Bool.not_eq_true] at hA
        have hp' : (['#'] : List Char).isPrefixOf link = true := hp
        unfold classify
        simp [hA, hp', isPre_of_eq_true hp']
    · obtain ⟨rest, hrest⟩ := isPre_of_eq_true hp
      subst hrest
      have hTW : ∀ c ∈ String.toList "data:", notHash c = true := by decide
      have hbh : beforeHash (String.toList "data:" ++ rest)
          = String.toList "data:" ++ beforeHash rest :=
        takeWhile_append_of_all notHash hTW rest
      have he : String.toList "data:" ++ beforeHash rest
          = 'd' :: (String.toList "ata:" ++ beforeHash rest) := rfl
      have hls : lstrip (String.toList "data:" ++ beforeHash rest)
          = String.toList "data:" ++ beforeHash rest := by
        unfold lstrip
        rw [he, List.dropWhile_cons, if_neg (by decide)]
      obtain ⟨w, hw⟩ := rstrip_cons_head (beforeHash rest) (show pySpace ':' = false by decide)
      have hne' : (rstrip (':' :: beforeHash rest)).isEmpty = false :=
        rstrip_isEmpty_false_of_nonspace _ (by decide)
      have hsplit : String.toList "data:" ++ beforeHash rest
          = String.toList "data" ++ (':' :: beforeHash rest) := rfl
      have hrs : rstrip (String.toList "data:" ++ beforeHash rest)
          = String.toList "data" ++ (':' :: w) := by
        rw [hsplit, rstrip_append_of_nonempty _ _ hne', hw]
      have hlp : strip (beforeHash (String.toList "data:" ++ rest))
          = String.toList "data" ++ (':' :: w) := by
        unfold strip
        rw [hbh, hls, hrs]
      have hdata : (['d', 'a', 't', 'a', ':'] : List Char).isPrefixOf
          (String.toList "data" ++ (':' :: w)) = true := by
        rw [ List.isPrefixOf_iff_prefix]
        exact ⟨w, rfl⟩
      exact classify_none_of_data hlp hdata
  refine ⟨hnone, ?_⟩
  intro ex path parent text
  rw [List.filter_eq_nil_iff]
  intro pr hpr
  obtain ⟨lnk, lp, hpr2, _, hcl, _⟩ := mem_checkDoc hpr
  intro hbeq
  have h2 : pr.2 = link := eq_of_beq hbeq
  have h3 : lnk = link := by
    rw [hpr2] at h2
    simpa using h2
  rw [h3, hnone] at hcl
  exact absurd hcl (by simp)

/-- C3 witness: `mailto:bob@example.org` carries one of the five prefixes and
is classified as skipped. -/
theorem external_never_checked_w :
    (c3Prefixes.any fun p => p.isPrefixOf (String.toList "mailto:bob@example.org")) = true ∧
      classify (String.toList "mailto:bob@example.org") = none :=
  ⟨by decide, (external_never_checked _ (by decide)).1⟩

/-- C4. Every occurrence of a classified-local raw target whose path portion
does not exist contributes its own `(document, raw target)` entry: with
distinct document paths, the count of the pair in the Validation Result
equals the number of occurrences of the raw target in that document. -/
theorem missing_once_per_occurrence (ex : List Char → List Char → Bool)
    (docs : List Doc) (d : Doc) (text link lp : List Char)
    (m : List (List Char × List Char))
    (hnd : (docs.map Doc.path).Nodup) (hd : d ∈ docs) (ht : d.content = .ok text)
    (hc : classify link = some lp) (hex : ex d.parent lp = false)
    (hm : scan ex docs = .ok m) :
    m.count (d.path, link) = (findLinks text).count link := by
  induction docs generalizing m with
  | nil => exact absurd hd (by simp)
  | cons d0 ds ih =>
    rw [List.map_cons, List.nodup_cons] at hnd
    obtain ⟨hnotin, hnd'⟩ := hnd
    unfold scan at hm
    cases hc0 : d0.content with
    | error e => rw [hc0] at hm; exact absurd hm (by simp)
    | ok t0 =>
      rw [hc0] at hm
      cases hs : scan ex ds with
      | error e => rw [hs] at hm; exact absurd hm (by simp)
      | ok rest =>
        rw [hs] at hm
        have hm2 : checkDoc ex d0.path d0.parent t0 ++ rest = m := by
          injection hm
        rw [← hm2, List.count_append]
        rcases List.mem_cons.mp hd with rfl | hdds
        · have ht0 : text = t0 := by
            rw [ht] at hc0
            simpa using hc0
          subst ht0
          rw [checkDoc_count text hc hex]
          have hz : rest.count (d.path, link) = 0 := by
            rw [List.count_eq_zero]
            intro hmem
            have hfst := scan_fst_mem hs hmem
            exact hnotin (by simpa using hfst)
          rw [hz]
          simp
        · have hz : (checkDoc ex d0.path d0.parent t0).count (d.path, link) = 0 := by
            rw [List.count_eq_zero]
            intro hmem
            obtain ⟨lnk, lp2, hpr, _, _, _⟩ := mem_checkDoc hmem
            have hdp : d.path = d0.path := congrArg Prod.fst hpr
            have hmm : d.path ∈ ds.map Doc.path := List.mem_map.mpr ⟨d, hdds, rfl⟩
            rw [hdp] at hmm
            exact hnotin hmm
          rw [hz, ih rest hnd' hdds hs]
          simp

/-- C4 witness: a document with two occurrences of the missing `./m.md`
yields the pair twice. -/
theorem missing_once_per_occurrence_w :
    scan exFalse [docTwice] = .ok
      [(String.toList "a.md", String.toList "./m.md"),
        (String.toList "a.md", String.toList "./m.md")] ∧
    List.count (String.toList "a.md", String.toList "./m.md")
        [(String.toList "a.md", String.toList "./m.md"),
          (String.toList "a.md", String.toList "./m.md")] =
      (findLinks (String.toList "[x](./m.md) and [y](./m.md)")).count
        (String.toList "./m.md") :=
  ⟨by decide,
    missing_once_per_occurrence exFalse [docTwice] docTwice
      (String.toList "[x](./m.md) and [y](./m.md)")
      (String.toList "./m.md") (String.toList "./m.md")
      [(String.toList "a.md", String.toList "./m.md"),
        (String.toList "a.md", String.toList "./m.md")]
      (by decide) (by decide) (by decide) (by decide) (by decide) (by decide)⟩

theorem dirMatches_eq (p : List Char) (es : List FTree) :
    dirMatches p es
      = ((dirEntriesNamed p es).filter fun pr => matchesMd pr.2).map Prod.fst := by
  unfold dirMatches dirEntriesNamed
  rw [List.filter_map, List.map_map]
  rfl

theorem rglobSubdirs_eq (p : List Char) (es : List FTree) :
    rglobSubdirs p es
      = ((allEntriesSub p es).filter fun pr => matchesMd pr.2).map Prod.fst := by
  induction p, es using rglobSubdirs.induct with
  | case1 p => simp [rglobSubdirs, allEntriesSub]
  | case2 p n c es ih => simp [rglobSubdirs, allEntriesSub, ih]
  | case3 p n sub es ih1 ih2 =>
    simp [rglobSubdirs, allEntriesSub, ih1, ih2, dirMatches_eq, List.filter_append,
      List.map_append]

/-- C5 as amended. Discovery yields exactly the entries whose name ends in
`.md`, in the tree's traversal order (each directory's matches in
directory-entry order, then its subdirectories' depth first) — a
deterministic function of the tree, but not a lexicographic sort. -/
theorem rglob_enumerates_every_md (es : List FTree) :
    rglob es = ((allEntries es).filter fun pr => matchesMd pr.2).map Prod.fst := by
  unfold rglob allEntries
  rw [List.filter_append, List.map_append, dirMatches_eq, rglobSubdirs_eq]

/-- C5 counterexample. A root whose directory iteration yields `b.md` before
`a.md` is enumerated in that order, which is not lexicographic. -/
theorem rglob_order_not_lex_cex :
    rglob esUnsorted = [String.toList "b.md", String.toList "a.md"] ∧
      lexSortedB (rglob esUnsorted) = false ∧
      lexLe (String.toList "a.md") (String.toList "b.md") = true := by
  have h1 : rglob esUnsorted = [String.toList "b.md", String.toList "a.md"] := by
    unfold rglob
    rw [show rglobSubdirs (String.toList ".") esUnsorted = [] from by
      simp [esUnsorted, rglobSubdirs]]
    decide
  refine ⟨h1, ?_, by decide⟩
  rw [h1]
  decide

/-- C10. Classification is case-sensitive: a target opening with any
letter-case variant of `http://`, `https://`, `mailto:` or `data:` other
than the exact lowercase prefix is classified local and reaches the
filesystem existence check, whatever follows the prefix. -/
theorem case_variant_still_checked (v : List Char) (hv : v ∈ c10Variants) :
    ∀ rest, (classify (v ++ rest)).isSome = true := by
  have hall : c10Variants.all c10Good = true := by decide
  intro rest
  exact classify_isSome_of_good (List.all_eq_true.mp hall v hv) rest

/-- C10 witness: `HTTP://` is a case variant and `HTTP://example.md` is
existence-checked. -/
theorem case_variant_still_checked_w :
    (String.toList "HTTP://" ∈ c10Variants) ∧
      (classify (String.toList "HTTP://" ++ String.toList "example.md")).isSome = true :=
  ⟨by decide, case_variant_still_checked _ (by decide) _⟩

end CheckDocsLinks
